import Mathlib

/-!
Verification of the complex linear-algebra primitives used by the notebook
`TallerEsp.Vect-Hermitian-Unitary-Tensor-Circuits.ipynb`: conjugate transpose,
Hermitian and unitary checks (via numpy-style `allclose`), Kronecker products
for vectors and matrices, and the Mach-Zehnder interferometer circuit.

Complex scalars are modelled exactly by `ℂ`; the floating-point tolerance of
`np.allclose` is kept as explicit real parameters `rtol`/`atol` (numpy's
defaults are `rtol = 1e-5`, `atol = 1e-8`, and its acceptance test is
`|a - b| ≤ atol + rtol * |b|` entrywise).
-/

namespace EspVect

open Complex Matrix

/-- Embedding of `np.kron` on two 1-D arrays: the concatenation, over the entries `a` of
`v`, of the blocks `a * w`. -/
def tensor_product_v (v w : List ℂ) : List ℂ :=
  (v.map fun a => w.map fun b => a * b).flatten

/-- Embedding of numpy's `M.conj().T`: entrywise conjugate followed by transpose. -/
def conjugate_transpose {n m : ℕ} (M : Matrix (Fin n) (Fin m) ℂ) :
    Matrix (Fin m) (Fin n) ℂ :=
  fun i j => star (M j i)

/-- numpy's `allclose` acceptance test, entrywise on matrices:
`|A[i,j] - B[i,j]| ≤ atol + rtol * |B[i,j]|`. -/
def allclose {n m : ℕ} (A B : Matrix (Fin n) (Fin m) ℂ) (rtol atol : ℝ) : Prop :=
  ∀ i j, Complex.abs (A i j - B i j) ≤ atol + rtol * Complex.abs (B i j)

/-- The notebook's Hermitian check: `np.allclose(M, M.conj().T)`. -/
def is_hermitian {n : ℕ} (M : Matrix (Fin n) (Fin n) ℂ) (rtol atol : ℝ) : Prop :=
  allclose M (conjugate_transpose M) rtol atol

/-- Embedding of `np.dot` on 2-D arrays: ordinary matrix multiplication. -/
def np_dot {n m k : ℕ} (A : Matrix (Fin n) (Fin m) ℂ)
    (B : Matrix (Fin m) (Fin k) ℂ) : Matrix (Fin n) (Fin k) ℂ :=
  fun i j => ((List.finRange m).map fun l => A i l * B l j).sum

/-- Embedding of `np.dot` of a 2-D array and a 1-D array: matrix-vector multiplication. -/
def np_dot_v {n m : ℕ} (A : Matrix (Fin n) (Fin m) ℂ) (v : Fin m → ℂ) :
    Fin n → ℂ :=
  fun i => ((List.finRange m).map fun l => A i l * v l).sum

/-- The notebook's unitarity check:
`np.allclose(np.dot(M, M.conj().T), np.eye(n))`. -/
def is_unitary {n : ℕ} (M : Matrix (Fin n) (Fin n) ℂ) (rtol atol : ℝ) : Prop :=
  allclose (np_dot M (conjugate_transpose M)) 1 rtol atol

theorem np_dot_eq_mul {n m k : ℕ} (A : Matrix (Fin n) (Fin m) ℂ)
    (B : Matrix (Fin m) (Fin k) ℂ) : np_dot A B = A * B := by
  ext i j
  rw [Matrix.mul_apply, Fin.sum_univ_def, np_dot]

theorem np_dot_v_eq_mulVec {n m : ℕ} (A : Matrix (Fin n) (Fin m) ℂ)
    (v : Fin m → ℂ) : np_dot_v A v = A.mulVec v := by
  ext i
  rw [Matrix.mulVec, Matrix.dotProduct, Fin.sum_univ_def, np_dot_v]

theorem Fin_div_lt {p r : ℕ} (i : Fin (p * r)) : i.val / r < p :=
  Nat.div_lt_of_lt_mul (lt_of_lt_of_eq i.isLt (Nat.mul_comm p r))

theorem Fin_r_pos {p r : ℕ} (i : Fin (p * r)) : 0 < r := by
  cases r with
  | zero => exact absurd i.isLt (by simp)
  | succ r => exact Nat.succ_pos _

theorem Fin_mod_lt {p r : ℕ} (i : Fin (p * r)) : i.val % r < r :=
  Nat.mod_lt _ (Fin_r_pos i)

/-- Embedding of `np.kron` on two 2-D arrays: for `A` of size `p×q` and `B` of size `r×s`,
the `(p·r)×(q·s)` matrix whose `(i, j)` entry is
`A[i / r, j / s] * B[i % r, j % s]` — equivalently,
`C[i*r+k, j*s+l] = A[i,j] * B[k,l]`. -/
def tensor_product {p q r s : ℕ} (A : Matrix (Fin p) (Fin q) ℂ)
    (B : Matrix (Fin r) (Fin s) ℂ) : Matrix (Fin (p * r)) (Fin (q * s)) ℂ :=
  fun i j =>
    A ⟨i.val / r, Fin_div_lt i⟩ ⟨j.val / s, Fin_div_lt j⟩ *
      B ⟨i.val % r, Fin_mod_lt i⟩ ⟨j.val % s, Fin_mod_lt j⟩

/-- The index `i*r + k` of the Kronecker block structure, as an index into
`Fin (p * r)`. -/
def kronIdx {p r : ℕ} (i : Fin p) (k : Fin r) : Fin (p * r) :=
  ⟨i.val * r + k.val, by
    have hk := k.isLt
    have h1 : i.val * r + k.val < (i.val + 1) * r := by
      rw [Nat.succ_mul]; omega
    have h2 : (i.val + 1) * r ≤ p * r := Nat.mul_le_mul_right _ i.isLt
    omega⟩

/-- Modelled from the spec: Exercise 1 obtains eigenvalues from
`np.linalg.eig`, numeric-library code outside this repository; the spec
prescribes the 2×2 closed form `λ = (trace ± sqrt(trace² - 4·det)) / 2`.
The definition is relational in the square root: `eigenvalues2 M lam1 lam2`
holds when `lam1, lam2` are `(t + s)/2, (t - s)/2` for `t` the trace, `d`
the determinant and `s` the nonnegative real square root of the
discriminant `t² - 4·d`. -/
def eigenvalues2 (M : Matrix (Fin 2) (Fin 2) ℂ) (lam1 lam2 : ℂ) : Prop :=
  ∃ s : ℝ, 0 ≤ s ∧
    (s : ℂ) * s = (M 0 0 + M 1 1) * (M 0 0 + M 1 1) -
      4 * (M 0 0 * M 1 1 - M 0 1 * M 1 0) ∧
    lam1 = ((M 0 0 + M 1 1) + s) / 2 ∧ lam2 = ((M 0 0 + M 1 1) - s) / 2

/-- Exercise 5's beam splitter `1/np.sqrt(2) * [[1, 1j], [1j, 1]]`.  The
scalar `1/np.sqrt(2)` is computed by the numeric library; it is the
parameter `s` here, instantiated with `(Real.sqrt 2)⁻¹` in the theorems. -/
def beam_splitter (s : ℝ) : Matrix (Fin 2) (Fin 2) ℂ :=
  (!![1, I; I, 1]).map fun z => (s : ℂ) * z

/-- Exercise 5's phase shifter `[[exp(1j*phi), 0], [0, exp(1j*phi)]]`.  The
scalar `np.exp(1j*phi)` is computed by the numeric library; it is the
parameter `e` here, instantiated with `Complex.exp (phi * I)` in the
theorems. -/
def phase_shifter (e : ℂ) : Matrix (Fin 2) (Fin 2) ℂ :=
  !![e, 0; 0, e]

/-- Exercise 5's interferometer `np.dot(PS, np.dot(BS, np.dot(PS, BS)))`. -/
def mach_zehnder_interferometer (s : ℝ) (e : ℂ) : Matrix (Fin 2) (Fin 2) ℂ :=
  np_dot (phase_shifter e)
    (np_dot (beam_splitter s) (np_dot (phase_shifter e) (beam_splitter s)))

/-- Exercise 1's matrix `[[3, 2+1j], [2-1j, 1]]`. -/
def hermitian_matrix : Matrix (Fin 2) (Fin 2) ℂ :=
  !![3, 2 + I; 2 - I, 1]

/-- Exercise 2's matrix `[[1, 1j], [1j, 1]]` (before the `1/np.sqrt(2)`
scaling that produces `unitary_matrix2`). -/
def unitary_matrix : Matrix (Fin 2) (Fin 2) ℂ :=
  !![1, I; I, 1]

/-- Exercise 4's `M1 = [[0, 1], [1, 0]]`. -/
def M1 : Matrix (Fin 2) (Fin 2) ℂ :=
  !![0, 1; 1, 0]

/-- Exercise 4's `M2 = [[1j, 0], [0, -1j]]`. -/
def M2 : Matrix (Fin 2) (Fin 2) ℂ :=
  !![I, 0; 0, -I]

theorem allclose_of_eq {n m : ℕ} {A B : Matrix (Fin n) (Fin m) ℂ}
    {rtol atol : ℝ} (hAB : A = B) (hr : 0 ≤ rtol) (ha : 0 ≤ atol) :
    allclose A B rtol atol := by
  intro i j
  rw [hAB, sub_self, map_zero]
  positivity

/- Length of the vector Kronecker product. -/
theorem tensor_product_v_length (v w : List ℂ) :
    (tensor_product_v v w).length = v.length * w.length := by
  induction v with
  | nil => simp [tensor_product_v]
  | cons a v ih =>
      simp only [tensor_product_v, List.map_cons, List.flatten_cons,
        List.length_append, List.length_map, List.length_cons,
        Nat.succ_mul] at *
      omega

/- Entry formula for the vector Kronecker product, in unbundled form. -/
theorem tensor_product_v_getElem (v w : List ℂ) (i j : ℕ)
    (hi : i < v.length) (hj : j < w.length)
    (h : i * w.length + j < (tensor_product_v v w).length) :
    (tensor_product_v v w)[i * w.length + j] = v[i] * w[j] := by
  induction v generalizing i with
  | nil => simp at hi
  | cons a v ih =>
      cases i with
      | zero =>
          have hj' : 0 * w.length + j < (List.map (fun b => a * b) w).length := by
            simpa using hj
          simp only [tensor_product_v, List.map_cons, List.flatten_cons]
          rw [List.getElem_append_left hj']
          simp
      | succ i =>
          have hi' : i < v.length := by simpa using hi
          have h' : i * w.length + j < (tensor_product_v v w).length := by
            rw [tensor_product_v_length]
            have h1 : i * w.length + j < (i + 1) * w.length := by
              rw [Nat.succ_mul]; omega
            have h2 : (i + 1) * w.length ≤ v.length * w.length :=
              Nat.mul_le_mul_right _ hi'
            omega
          have hlen : (List.map (fun b => a * b) w).length ≤
              (i + 1) * w.length + j := by
            simp only [List.length_map, Nat.succ_mul]; omega
          simp only [tensor_product_v, List.map_cons, List.flatten_cons]
          rw [List.getElem_append_right hlen]
          have hidx : (i + 1) * w.length + j -
              (List.map (fun b => a * b) w).length = i * w.length + j := by
            simp only [List.length_map, Nat.succ_mul]; omega
          simp only [hidx, List.getElem_cons_succ]
          have key := ih i hi' h'
          simpa [tensor_product_v] using key

theorem conjugate_transpose_involutive {n m : ℕ} (M : Matrix (Fin n) (Fin m) ℂ) :
    conjugate_transpose (conjugate_transpose M) = M := by
  ext i j
  simp [conjugate_transpose]

theorem is_hermitian_conjugate_transpose_of {n : ℕ}
    (M : Matrix (Fin n) (Fin n) ℂ) (rtol atol : ℝ)
    (h : is_hermitian M rtol atol) :
    is_hermitian (conjugate_transpose M) rtol atol := by
  intro i j
  have key := h j i
  simp only [conjugate_transpose, star_star]
  simp only [conjugate_transpose] at key
  simp only [Complex.star_def] at key ⊢
  rw [Complex.abs_conj] at key
  have e : (starRingEnd ℂ) (M j i) - M i j =
      (starRingEnd ℂ) (M j i - (starRingEnd ℂ) (M i j)) := by
    simp [map_sub]
  rw [e, Complex.abs_conj]
  exact key

/-- C7: applying the conjugate transpose twice returns the original matrix,
for matrices of any shape. -/
theorem spec_C7 {n m : ℕ} (M : Matrix (Fin n) (Fin m) ℂ) :
    conjugate_transpose (conjugate_transpose M) = M :=
  conjugate_transpose_involutive M

/-- C8: for every square complex matrix and every tolerance, the Hermitian
check gives the same answer on the matrix and on its conjugate transpose. -/
theorem spec_C8 {n : ℕ} (M : Matrix (Fin n) (Fin n) ℂ) (rtol atol : ℝ) :
    is_hermitian M rtol atol ↔ is_hermitian (conjugate_transpose M) rtol atol := by
  constructor
  · exact is_hermitian_conjugate_transpose_of M rtol atol
  · intro h
    have key := is_hermitian_conjugate_transpose_of _ rtol atol h
    rwa [conjugate_transpose_involutive] at key

/-- C1: the tensor (Kronecker) product of a length-`m` vector and a
length-`n` vector has length `m * n`, and its entry at `i*n + j` is
`v[i] * w[j]`. -/
theorem spec_C1 (v w : List ℂ) (i : Fin v.length) (j : Fin w.length) :
    (tensor_product_v v w).length = v.length * w.length ∧
    (tensor_product_v v w).get
      ⟨i.val * w.length + j.val, by
        rw [tensor_product_v_length]
        have hj := j.isLt
        have h1 : i.val * w.length + j.val < (i.val + 1) * w.length := by
          rw [Nat.succ_mul]; omega
        have h2 : (i.val + 1) * w.length ≤ v.length * w.length :=
          Nat.mul_le_mul_right _ i.isLt
        omega⟩ = v.get i * w.get j := by
  refine ⟨tensor_product_v_length v w, ?_⟩
  rw [List.get_eq_getElem, List.get_eq_getElem, List.get_eq_getElem]
  exact tensor_product_v_getElem v w i.val j.val i.isLt j.isLt _

theorem np_dot_two_apply (A B : Matrix (Fin 2) (Fin 2) ℂ) (i j : Fin 2) :
    np_dot A B i j = A i 0 * B 0 j + A i 1 * B 1 j := by
  rw [np_dot_eq_mul, Matrix.mul_apply, Fin.sum_univ_two]

theorem np_dot_v_two_apply (A : Matrix (Fin 2) (Fin 2) ℂ) (v : Fin 2 → ℂ)
    (i : Fin 2) : np_dot_v A v i = A i 0 * v 0 + A i 1 * v 1 := by
  rw [np_dot_v_eq_mulVec, Matrix.mulVec, Matrix.dotProduct, Fin.sum_univ_two]

theorem invSqrt2_sq : (((Real.sqrt 2)⁻¹ : ℝ) : ℂ) * (((Real.sqrt 2)⁻¹ : ℝ) : ℂ) =
    (2 : ℂ)⁻¹ := by
  rw [← Complex.ofReal_mul, ← mul_inv, Real.mul_self_sqrt (by norm_num)]
  norm_num

theorem conjugate_transpose_eq_conjTranspose {n m : ℕ}
    (M : Matrix (Fin n) (Fin m) ℂ) :
    conjugate_transpose M = M.conjTranspose := rfl

theorem map_mul_left_eq_smul {n m : ℕ} (M : Matrix (Fin n) (Fin m) ℂ) (c : ℂ) :
    (M.map fun z => c * z) = c • M := by
  ext i j
  simp [Matrix.map_apply, Matrix.smul_apply, smul_eq_mul]

theorem unitary_matrix_mul_ct :
    np_dot unitary_matrix (conjugate_transpose unitary_matrix) =
      (2 : ℂ) • 1 := by
  rw [np_dot_eq_mul, conjugate_transpose_eq_conjTranspose]
  ext i j
  fin_cases i <;> fin_cases j <;>
    simp [unitary_matrix, Matrix.mul_apply, Fin.sum_univ_two,
      Matrix.conjTranspose_apply, Complex.star_def, Complex.conj_I,
      Matrix.one_apply, Matrix.smul_apply] <;>
    ring

theorem unitary_matrix2_prod :
    np_dot (unitary_matrix.map fun z => (((Real.sqrt 2)⁻¹ : ℝ) : ℂ) * z)
      (conjugate_transpose
        (unitary_matrix.map fun z => (((Real.sqrt 2)⁻¹ : ℝ) : ℂ) * z)) = 1 := by
  have hmul := unitary_matrix_mul_ct
  rw [np_dot_eq_mul, conjugate_transpose_eq_conjTranspose] at hmul ⊢
  rw [map_mul_left_eq_smul, Matrix.conjTranspose_smul, Matrix.smul_mul,
    Matrix.mul_smul, hmul]
  rw [smul_smul, smul_smul]
  have hstar : star (((Real.sqrt 2)⁻¹ : ℝ) : ℂ) = (((Real.sqrt 2)⁻¹ : ℝ) : ℂ) := by
    rw [Complex.star_def, Complex.conj_ofReal]
  rw [hstar, invSqrt2_sq]
  norm_num

/-- C5: the matrix `U = (1/sqrt 2) * [[1, i], [i, 1]]` (Exercise 2's
`unitary_matrix2`) is unitary: `U · Uᴴ` equals the 2×2 identity exactly,
so the unitarity check at numpy's default tolerances returns true. -/
theorem spec_C5 :
    np_dot (unitary_matrix.map fun z => (((Real.sqrt 2)⁻¹ : ℝ) : ℂ) * z)
        (conjugate_transpose
          (unitary_matrix.map fun z => (((Real.sqrt 2)⁻¹ : ℝ) : ℂ) * z)) = 1 ∧
    is_unitary (unitary_matrix.map fun z => (((Real.sqrt 2)⁻¹ : ℝ) : ℂ) * z)
      1e-5 1e-8 :=
  ⟨unitary_matrix2_prod,
    allclose_of_eq unitary_matrix2_prod (by norm_num) (by norm_num)⟩

/-- C10: in the Exercise 2 cell the unitarity check is evaluated on the
scaled matrix `unitary_matrix2 = (1/sqrt 2)·[[1, i], [i, 1]]` and holds, but
the matrix paired with that result in the cell's output is the unscaled
`unitary_matrix = [[1, i], [i, 1]]`, which is not unitary: its product with
its own conjugate transpose is `2` times the identity. -/
theorem spec_C10 :
    is_unitary (unitary_matrix.map fun z => (((Real.sqrt 2)⁻¹ : ℝ) : ℂ) * z)
      1e-5 1e-8 ∧
    ¬ is_unitary unitary_matrix 1e-5 1e-8 ∧
    np_dot unitary_matrix (conjugate_transpose unitary_matrix) =
      (2 : ℂ) • 1 := by
  refine ⟨allclose_of_eq unitary_matrix2_prod (by norm_num) (by norm_num),
    ?_, unitary_matrix_mul_ct⟩
  intro h
  have key := h 0 0
  rw [unitary_matrix_mul_ct] at key
  simp only [Matrix.smul_apply, Matrix.one_apply_eq, smul_eq_mul, mul_one] at key
  have : Complex.abs (2 - 1) = 1 := by norm_num
  rw [this, Complex.abs.map_one] at key
  norm_num at key

theorem hermitian_matrix_eq_ct :
    hermitian_matrix = conjugate_transpose hermitian_matrix := by
  ext i j
  fin_cases i <;> fin_cases j <;>
    simp [hermitian_matrix, conjugate_transpose, Complex.star_def,
      map_sub, map_add, Complex.conj_I, map_ofNat] <;>
    try ring

theorem sqrt6_lower : (2.449 : ℝ) < Real.sqrt 6 := by
  have h6 : Real.sqrt 6 * Real.sqrt 6 = 6 := Real.mul_self_sqrt (by norm_num)
  nlinarith [Real.sqrt_nonneg 6]

theorem sqrt6_upper : Real.sqrt 6 < (2.45 : ℝ) := by
  have h6 : Real.sqrt 6 * Real.sqrt 6 = 6 := Real.mul_self_sqrt (by norm_num)
  nlinarith [Real.sqrt_nonneg 6]

/-- C4: Exercise 1's matrix `H = [[3, 2+i], [2-i, 1]]` passes the Hermitian
check, and its eigenvalues by the 2×2 closed form are exactly `2 ± sqrt 6`,
real numbers approximately `4.449` and `-0.449`. -/
theorem spec_C4 :
    is_hermitian hermitian_matrix 1e-5 1e-8 ∧
    eigenvalues2 hermitian_matrix ((2 : ℂ) + (Real.sqrt 6 : ℝ))
      ((2 : ℂ) - (Real.sqrt 6 : ℝ)) ∧
    ((2 : ℂ) + (Real.sqrt 6 : ℝ)).im = 0 ∧
    ((2 : ℂ) - (Real.sqrt 6 : ℝ)).im = 0 ∧
    (4.449 : ℝ) < 2 + Real.sqrt 6 ∧ 2 + Real.sqrt 6 < (4.45 : ℝ) ∧
    (-0.45 : ℝ) < 2 - Real.sqrt 6 ∧ 2 - Real.sqrt 6 < (-0.449 : ℝ) := by
  have e00 : hermitian_matrix 0 0 = 3 := by simp [hermitian_matrix]
  have e01 : hermitian_matrix 0 1 = 2 + I := by simp [hermitian_matrix]
  have e10 : hermitian_matrix 1 0 = 2 - I := by simp [hermitian_matrix]
  have e11 : hermitian_matrix 1 1 = 1 := by simp [hermitian_matrix]
  refine ⟨allclose_of_eq hermitian_matrix_eq_ct (by norm_num) (by norm_num),
    ⟨2 * Real.sqrt 6, by positivity, ?_, ?_, ?_⟩, by simp, by simp,
    by linarith [sqrt6_lower], by linarith [sqrt6_upper],
    by linarith [sqrt6_upper], by linarith [sqrt6_lower]⟩
  · rw [e00, e01, e10, e11]
    have hsq : ((Real.sqrt 6 : ℝ) : ℂ) * ((Real.sqrt 6 : ℝ) : ℂ) = 6 := by
      rw [← Complex.ofReal_mul, Real.mul_self_sqrt (by norm_num)]
      norm_num
    push_cast
    linear_combination 4 * hsq + 4 * Complex.I_mul_I
  · rw [e00, e11]
    push_cast
    ring
  · rw [e00, e11]
    push_cast
    ring

theorem tensor_prose_vectors :
    tensor_product_v [1 + I, 2 - I] [1 - 2 * I, 3] =
      [3 - I, 3 + 3 * I, -(5 * I), 6 - 3 * I] := by
  have h1 : ((1 : ℂ) + I) * (1 - 2 * I) = 3 - I := by
    linear_combination (-2 : ℂ) * Complex.I_mul_I
  have h2 : ((1 : ℂ) + I) * 3 = 3 + 3 * I := by ring
  have h3 : ((2 : ℂ) - I) * (1 - 2 * I) = -(5 * I) := by
    linear_combination (2 : ℂ) * Complex.I_mul_I
  have h4 : ((2 : ℂ) - I) * 3 = 6 - 3 * I := by ring
  show [((1 : ℂ) + I) * (1 - 2 * I), ((1 : ℂ) + I) * 3,
    ((2 : ℂ) - I) * (1 - 2 * I), ((2 : ℂ) - I) * 3] = _
  rw [h1, h2, h3, h4]

theorem tensor_code_vectors :
    tensor_product_v [2, 2 - I] [1 - 2 * I, 3] =
      [2 - 4 * I, 6, 0 - 5 * I, 6 - 3 * I] := by
  have h3 : ((2 : ℂ) - I) * (1 - 2 * I) = 0 - 5 * I := by
    linear_combination (2 : ℂ) * Complex.I_mul_I
  have h4 : ((2 : ℂ) - I) * 3 = 6 - 3 * I := by ring
  have h5 : (2 : ℂ) * (1 - 2 * I) = 2 - 4 * I := by ring
  have h6 : (2 : ℂ) * 3 = 6 := by ring
  show [(2 : ℂ) * (1 - 2 * I), (2 : ℂ) * 3,
    ((2 : ℂ) - I) * (1 - 2 * I), ((2 : ℂ) - I) * 3] = _
  rw [h3, h4, h5, h6]

/-- C2: the tensor product of the Exercise 3 prose vectors `[1+i, 2-i]` and
`[1-2i, 3]` is `[3-i, 3+3i, -5i, 6-3i]`; but the Exercise 3 code cell types
`1+1` (the real number 2) instead of `1+1j`, so the value it computes is
`[2-4i, 6, -5i, 6-3i]`, which differs from the tensor product of the
vectors given in the exercise prose. -/
theorem spec_C2 :
    tensor_product_v [1 + I, 2 - I] [1 - 2 * I, 3] =
      [3 - I, 3 + 3 * I, -(5 * I), 6 - 3 * I] ∧
    tensor_product_v [2, 2 - I] [1 - 2 * I, 3] =
      [2 - 4 * I, 6, 0 - 5 * I, 6 - 3 * I] ∧
    tensor_product_v [2, 2 - I] [1 - 2 * I, 3] ≠
      tensor_product_v [1 + I, 2 - I] [1 - 2 * I, 3] := by
  refine ⟨tensor_prose_vectors, tensor_code_vectors, ?_⟩
  rw [tensor_prose_vectors, tensor_code_vectors]
  intro h
  simp [Complex.ext_iff] at h

/-- C3 counterexample: contrary to the claim, the vector
`[2-4i, 6, 0-5i, 6-3i]` (the cell's printed output, which C3 calls the
worked answer) is exactly the Kronecker product of the code cell's vectors
`v1 = [2, 2-1i]` and `v2 = [1-2i, 3]`. -/
theorem spec_C3_counterexample :
    tensor_product_v [2, 2 - I] [1 - 2 * I, 3] =
      [2 - 4 * I, 6, 0 - 5 * I, 6 - 3 * I] :=
  tensor_code_vectors

/-- C3 (amended): the worked answer as actually printed in the Exercise 3
markdown is the three-entry vector `[2-4i, 6, 6-3i]`, and that vector does
not equal the Kronecker product of the code cell's vectors `v1 = [2, 2-1i]`
and `v2 = [1-2i, 3]` (which is the four-entry `[2-4i, 6, -5i, 6-3i]`). -/
theorem spec_C3 :
    tensor_product_v [2, 2 - I] [1 - 2 * I, 3] ≠
      [2 - 4 * I, 6, 6 - 3 * I] := by
  rw [tensor_code_vectors]
  intro h
  have hlen := congrArg List.length h
  norm_num at hlen

theorem tensor_product_kronIdx {p q r s : ℕ} (A : Matrix (Fin p) (Fin q) ℂ)
    (B : Matrix (Fin r) (Fin s) ℂ) (i : Fin p) (j : Fin q) (k : Fin r)
    (l : Fin s) :
    tensor_product A B (kronIdx i k) (kronIdx j l) = A i j * B k l := by
  have hr : 0 < r := k.pos
  have hs : 0 < s := l.pos
  have div1 : (i.val * r + k.val) / r = i.val := by
    rw [Nat.mul_comm, Nat.mul_add_div hr, Nat.div_eq_of_lt k.isLt, Nat.add_zero]
  have div2 : (j.val * s + l.val) / s = j.val := by
    rw [Nat.mul_comm, Nat.mul_add_div hs, Nat.div_eq_of_lt l.isLt, Nat.add_zero]
  have mod1 : (i.val * r + k.val) % r = k.val := by
    rw [Nat.mul_comm, Nat.mul_add_mod, Nat.mod_eq_of_lt k.isLt]
  have mod2 : (j.val * s + l.val) % s = l.val := by
    rw [Nat.mul_comm, Nat.mul_add_mod, Nat.mod_eq_of_lt l.isLt]
  simp only [tensor_product]
  rw [show (⟨(kronIdx i k).val / r, Fin_div_lt (kronIdx i k)⟩ : Fin p) = i from
      Fin.ext div1,
    show (⟨(kronIdx j l).val / s, Fin_div_lt (kronIdx j l)⟩ : Fin q) = j from
      Fin.ext div2,
    show (⟨(kronIdx i k).val % r, Fin_mod_lt (kronIdx i k)⟩ : Fin r) = k from
      Fin.ext mod1,
    show (⟨(kronIdx j l).val % s, Fin_mod_lt (kronIdx j l)⟩ : Fin s) = l from
      Fin.ext mod2]

/-- C6: the Kronecker product of Exercise 4's `M1 = [[0,1],[1,0]]` and
`M2 = [[i,0],[0,-i]]` satisfies the block rule
`C[i*r+k, j*s+l] = M1[i,j] * M2[k,l]` and equals the 4×4 matrix with `i` at
positions (0,2) and (2,0), `-i` at (1,3) and (3,1), and `0` elsewhere. -/
theorem spec_C6 :
    (∀ (i j k l : Fin 2),
      tensor_product M1 M2 (kronIdx i k) (kronIdx j l) = M1 i j * M2 k l) ∧
    tensor_product M1 M2 =
      !![0, 0, I, 0; 0, 0, 0, -I; I, 0, 0, 0; 0, -I, 0, 0] := by
  refine ⟨fun i j k l => tensor_product_kronIdx M1 M2 i j k l, ?_⟩
  ext i j
  fin_cases i <;> fin_cases j <;>
    norm_num [tensor_product, M1, M2, Matrix.cons_val_zero, Matrix.cons_val_one,
      Matrix.head_cons, Matrix.cons_val_zero', Matrix.cons_val_succ',
      Fin.mk_zero, Fin.mk_one]

theorem mach_zehnder_closed (e : ℂ) :
    mach_zehnder_interferometer (Real.sqrt 2)⁻¹ e =
      !![0, e * e * I; e * e * I, 0] := by
  have hc2 : ((Real.sqrt 2 : ℝ) : ℂ)⁻¹ * ((Real.sqrt 2 : ℝ) : ℂ)⁻¹ = 2⁻¹ := by
    have hc := invSqrt2_sq
    push_cast at hc
    exact hc
  ext i j
  simp only [mach_zehnder_interferometer]
  fin_cases i <;> fin_cases j <;>
    simp [-mul_eq_zero, np_dot_two_apply, phase_shifter, beam_splitter,
      Matrix.map_apply] <;>
    first
      | linear_combination (((Real.sqrt 2 : ℝ) : ℂ))⁻¹ ^ 2 * e ^ 2 *
          Complex.I_mul_I
      | linear_combination (2 * e ^ 2 * I) * hc2

theorem exp_phi_normSq (phi : ℝ) :
    Complex.normSq (Complex.exp (phi * I)) = 1 := by
  rw [Complex.normSq_eq_abs, Complex.abs_exp_ofReal_mul_I]
  norm_num

theorem exp_phi_mul_conj (phi : ℝ) :
    Complex.exp (phi * I) * (starRingEnd ℂ) (Complex.exp (phi * I)) = 1 := by
  rw [Complex.mul_conj, exp_phi_normSq]
  norm_num

theorem exp_pi_div_four_sq :
    Complex.exp ((Real.pi / 4 : ℝ) * I) * Complex.exp ((Real.pi / 4 : ℝ) * I) =
      I := by
  rw [← Complex.exp_add]
  have harg : ((Real.pi / 4 : ℝ) : ℂ) * I + ((Real.pi / 4 : ℝ) : ℂ) * I =
      ((Real.pi / 2 : ℝ) : ℂ) * I := by
    push_cast
    ring
  rw [harg, Complex.exp_mul_I, ← Complex.ofReal_cos, ← Complex.ofReal_sin,
    Real.cos_pi_div_two, Real.sin_pi_div_two]
  simp

/-- C9: for every real phase `phi`, the Exercise 5 Mach-Zehnder matrix
`PS(phi) · BS · PS(phi) · BS` is unitary (its product with its conjugate
transpose is the identity) and preserves the squared norm of every
2-component state; for `phi = pi/4` and input `[1, 0]` the output state is
`[0, -1]`. -/
theorem spec_C9 :
    (∀ phi : ℝ,
      np_dot (mach_zehnder_interferometer (Real.sqrt 2)⁻¹
            (Complex.exp (phi * I)))
          (conjugate_transpose (mach_zehnder_interferometer (Real.sqrt 2)⁻¹
            (Complex.exp (phi * I)))) = 1 ∧
      ∀ v : Fin 2 → ℂ,
        Complex.normSq (np_dot_v (mach_zehnder_interferometer (Real.sqrt 2)⁻¹
              (Complex.exp (phi * I))) v 0) +
          Complex.normSq (np_dot_v (mach_zehnder_interferometer (Real.sqrt 2)⁻¹
              (Complex.exp (phi * I))) v 1) =
        Complex.normSq (v 0) + Complex.normSq (v 1)) ∧
    np_dot_v (mach_zehnder_interferometer (Real.sqrt 2)⁻¹
        (Complex.exp ((Real.pi / 4 : ℝ) * I))) ![1, 0] = ![0, -1] := by
  refine ⟨fun phi => ⟨?_, fun v => ?_⟩, ?_⟩
  · rw [mach_zehnder_closed]
    have hconj := exp_phi_mul_conj phi
    ext i j
    rw [np_dot_two_apply]
    fin_cases i <;> fin_cases j <;>
      simp [-mul_eq_zero, conjugate_transpose, Matrix.one_apply,
        Complex.star_def, RingHom.map_mul, Complex.conj_I] <;>
      linear_combination (Complex.exp (phi * I) *
          (starRingEnd ℂ) (Complex.exp (phi * I)) + 1) * hconj -
        (Complex.exp (phi * I) * (starRingEnd ℂ) (Complex.exp (phi * I)))^2 *
          Complex.I_mul_I
  · rw [mach_zehnder_closed]
    rw [np_dot_v_two_apply, np_dot_v_two_apply]
    have hns := exp_phi_normSq phi
    simp [-mul_eq_zero, Complex.normSq_mul, Complex.normSq_I, hns]
    ring
  · rw [mach_zehnder_closed]
    ext i
    rw [np_dot_v_two_apply]
    have hsq := exp_pi_div_four_sq
    push_cast at hsq
    fin_cases i <;>
      simp [-mul_eq_zero, hsq]
